import Mathlib

/-!
Verification of the solport repository against its specification.

The repository is a portfolio-analytics dashboard.  Its React components
(SmartMoneyPerformanceReport, PortSummaryReport, the wallet token modals)
are present in the source tree and are embedded below directly from the
JavaScript.  The cache subsystem (BoundedTTLCache, SingleFlightGroup,
CacheManager, MetricsRecorder) is described by the specification and by the
deployment guide in the tree, but its implementation file
(cache/cache_manager.py) is not part of the source tree; those components
are therefore modelled from the specification, as marked on each definition.

Machine integers and timestamps are modelled as Nat; JavaScript numeric
values subject to parseFloat are modelled as Option of a rational, where
none stands for a value whose parse yields NaN.
-/

/-! ## Part 1: token list sorting and filtering (SmartMoneyMovementsModal) -/

/-- A wallet token row as handled by the modal components.  Only the fields
relevant to sorting and filtering are kept; profitAndLoss is the parse
result of the raw field (none when parseFloat yields NaN). -/
structure Token where
  tokenName : String
  profitAndLoss : Option ℚ
deriving DecidableEq

/-- JavaScript expression parseFloat(token.profitAndLoss) with a fallback of
zero: a NaN parse (modelled by none) collapses to 0. -/
def jsPnl (t : Token) : ℚ :=
  t.profitAndLoss.getD 0

/-- Comparator of sortTokensByPnl: the source comparator
(a, b) => direction === 'desc' ? bPnl - aPnl : aPnl - bPnl
returns a nonpositive number exactly when a may precede b, which is the
relation below. -/
def pnlLe (direction : String) (a b : Token) : Bool :=
  if direction = "desc" then decide (jsPnl b ≤ jsPnl a) else decide (jsPnl a ≤ jsPnl b)

theorem pnlLe_desc (a b : Token) :
    pnlLe "desc" a b = decide (jsPnl b ≤ jsPnl a) := rfl

theorem pnlLe_of_ne {direction : String} (h : direction ≠ "desc") (a b : Token) :
    pnlLe direction a b = decide (jsPnl a ≤ jsPnl b) := by
  simp [pnlLe, h]

/-- Embedding of sortTokensByPnl from SmartMoneyMovementsModal: a stable
sort of a copy of the array under the pnl comparator, where
xPnl = parseFloat(x.profitAndLoss) or 0. -/
def sortTokensByPnl (tokensToSort : List Token) (direction : String) : List Token :=
  tokensToSort.mergeSort (pnlLe direction)

/-- Embedding of getFilteredTokens from SmartMoneyMovementsModal: keeps a
token unless it is profitable (pnl >= 0) while showProfitable is off, or
loss-making while showLossMaking is off. -/
def getFilteredTokens (tokens : List Token)
    ( showProfitable showLossMaking : Bool) : List Token :=
  tokens.filter fun token =>
    let pnl := jsPnl token
    let isProfitable : Bool := decide (0 ≤ pnl)
    if isProfitable && !showProfitable then false
    else if !isProfitable && !showLossMaking then false
    else true

/-- Concrete token list used by witnesses. -/
def sampleTokens : List Token :=
  [⟨"alpha", some 3⟩, ⟨"beta", none⟩, ⟨"gamma", some (-2)⟩, ⟨"delta", some 7⟩]

/-- C8: sortTokensByPnl returns a permutation of its input, ordered with the
pnl values non-increasing when the direction is desc and non-decreasing
otherwise.  (The input list itself is untouched: the embedding is a pure
function on a copy, mirroring the spread-copy in the source.) -/
theorem sortTokensByPnl_sorts (ts : List Token) (direction : String) :
    (sortTokensByPnl ts direction).Perm ts ∧
    (direction = "desc" →
      ((sortTokensByPnl ts direction).map jsPnl).Sorted (· ≥ ·)) ∧
    (direction ≠ "desc" →
      ((sortTokensByPnl ts direction).map jsPnl).Sorted (· ≤ ·)) := by
  refine ⟨List.mergeSort_perm _ _, ?_, ?_⟩
  · intro hdir
    subst hdir
    have hp : List.Pairwise (fun a b : Token => pnlLe "desc" a b = true)
        (sortTokensByPnl ts "desc") := by
      apply List.sorted_mergeSort
      · intro a b c hab hbc
        simp only [pnlLe_desc, decide_eq_true_eq] at hab hbc ⊢
        exact le_trans hbc hab
      · intro a b
        simp only [pnlLe_desc, Bool.or_eq_true, decide_eq_true_eq]
        exact le_total (jsPnl b) (jsPnl a)
    refine List.Pairwise.map jsPnl ?_ hp
    intro a b h
    simp only [pnlLe_desc, decide_eq_true_eq] at h
    exact h
  · intro hdir
    have hp : List.Pairwise (fun a b : Token => pnlLe direction a b = true)
        (sortTokensByPnl ts direction) := by
      apply List.sorted_mergeSort
      · intro a b c hab hbc
        simp only [pnlLe_of_ne hdir, decide_eq_true_eq] at hab hbc ⊢
        exact le_trans hab hbc
      · intro a b
        simp only [pnlLe_of_ne hdir, Bool.or_eq_true, decide_eq_true_eq]
        exact le_total (jsPnl a) (jsPnl b)
    refine List.Pairwise.map jsPnl ?_ hp
    intro a b h
    simp only [pnlLe_of_ne hdir, decide_eq_true_eq] at h
    exact h

/-- Witness for C8 at a concrete token list and direction desc. -/
theorem sortTokensByPnl_sorts_witness :
    (sortTokensByPnl sampleTokens "desc").Perm sampleTokens ∧
    ((sortTokensByPnl sampleTokens "desc").map jsPnl).Sorted (· ≥ ·) :=
  ⟨(sortTokensByPnl_sorts sampleTokens "desc").1,
    (sortTokensByPnl_sorts sampleTokens "desc").2.1 rfl⟩

/-- C9: getFilteredTokens keeps exactly the tokens whose pnl is nonnegative
with showProfitable on, or negative with showLossMaking on; with both
toggles on it returns the list unchanged, and the result is always a
subsequence of the input. -/
theorem getFilteredTokens_characterization (ts : List Token)
    ( showProfitable showLossMaking : Bool) :
    getFilteredTokens ts showProfitable showLossMaking
      = ts.filter (fun t =>
          decide ((0 ≤ jsPnl t ∧ showProfitable = true) ∨
            (jsPnl t < 0 ∧ showLossMaking = true))) ∧
    getFilteredTokens ts true true = ts ∧
    (getFilteredTokens ts showProfitable showLossMaking).Sublist ts := by
  refine ⟨?_, ?_, List.filter_sublist ts⟩
  · apply List.filter_congr
    intro t _
    by_cases hp : (0 : ℚ) ≤ jsPnl t
    · cases showProfitable <;>
        simp [hp, not_lt.mpr hp, decide_eq_true_eq]
    · cases showLossMaking <;>
        simp [hp, not_le.mp hp, decide_eq_true_eq]
  · apply List.filter_eq_self.mpr
    intro t _
    by_cases hp : (0 : ℚ) ≤ jsPnl t <;> simp [hp]

/-! ## Part 2: query-parameter construction (fetchData in
SmartMoneyPerformanceReport and PortSummaryReport) -/

/-- JavaScript value as it occurs among filter / sort parameters. -/
inductive JsValue where
  | undef : JsValue
  | null : JsValue
  | str (s : String) : JsValue
  | num (n : Int) : JsValue
  | bool (b : Bool) : JsValue
deriving DecidableEq

/-- JavaScript truthiness for the values above. -/
def JsValue.truthy : JsValue → Bool
  | .undef => false
  | .null => false
  | .str s => decide (s ≠ "")
  | .num n => decide (n ≠ 0)
  | .bool b => b

/-- Embedding of key.replace(/[A-Z]/g, letter => underscore + lowercase):
every ASCII uppercase letter is replaced by an underscore followed by its
lowercase form; all other characters are kept. -/
def toSnakeCase (s : String) : String :=
  String.mk (s.data.foldr
    (fun c acc => if c.isUpper then '_' :: c.toLower :: acc else c :: acc) [])

/-- Lookup of a key in an association list modelling a JavaScript object
(first matching key wins; a JavaScript object has unique keys). -/
def lookupKey {β : Type} (k : String) : List (String × β) → Option β
  | [] => none
  | (k2, v) :: rest => if k2 = k then some v else lookupKey k rest

/-- Property assignment obj[k] = v on a JavaScript object modelled as an
association list: replace in place when the key exists, append otherwise. -/
def objSet {β : Type} (o : List (String × β)) (k : String) (v : β) :
    List (String × β) :=
  if (lookupKey k o).isSome then
    o.map (fun kv => if kv.1 = k then (k, v) else kv)
  else o ++ [(k, v)]

/-- Embedding of the reduce in fetchData (identical in
SmartMoneyPerformanceReport and PortSummaryReport): starting from an empty
object, each entry whose value is truthy is stored under its snake_case key
with the value unchanged; falsy entries are skipped. -/
def buildStep (acc : List (String × JsValue)) (kv : String × JsValue) :
    List (String × JsValue) :=
  if kv.2.truthy then objSet acc (toSnakeCase kv.1) kv.2 else acc

def buildApiFilters (entries : List (String × JsValue)) : List (String × JsValue) :=
  entries.foldl buildStep []

/-- Embedding of fetchData in PortSummaryReport: after the reduce, the code
runs if (!apiFilters.chain_name) apiFilters.chain_name = '' so that the
chain_name parameter is always present. -/
def portSummaryApiFilters (entries : List (String × JsValue)) :
    List (String × JsValue) :=
  let base := buildApiFilters entries
  match lookupKey "chain_name" base with
  | some v => if v.truthy then base else objSet base "chain_name" (JsValue.str "")
  | none => objSet base "chain_name" (JsValue.str "")

theorem lookupKey_eq_none_iff {β : Type} (k : String) (o : List (String × β)) :
    lookupKey k o = none ↔ k ∉ o.map Prod.fst := by
  induction o with
  | nil => simp [lookupKey]
  | cons kv rest ih =>
    rcases kv with ⟨k0, v0⟩
    by_cases h : k0 = k
    · subst h
      simp [lookupKey]
    · rw [show lookupKey k ((k0, v0) :: rest) = lookupKey k rest by
        simp [lookupKey, h]]
      rw [ih]
      simp only [List.map_cons, List.mem_cons]
      constructor
      · intro hnm hor
        rcases hor with h1 | h1
        · exact h h1.symm
        · exact hnm h1
      · intro hnm hm
        exact hnm (Or.inr hm)

theorem lookupKey_isSome_iff {β : Type} (k : String) (o : List (String × β)) :
    (lookupKey k o).isSome = true ↔ k ∈ o.map Prod.fst := by
  constructor
  · intro h
    by_contra hmem
    rw [(lookupKey_eq_none_iff k o).mpr hmem] at h
    simp at h
  · intro hmem
    by_contra h
    exact ((lookupKey_eq_none_iff k o).mp (Option.not_isSome_iff_eq_none.mp h)) hmem

theorem lookupKey_append {β : Type} (k : String) (l1 l2 : List (String × β)) :
    lookupKey k (l1 ++ l2) = (lookupKey k l1).or (lookupKey k l2) := by
  induction l1 with
  | nil => simp [lookupKey]
  | cons kv rest ih =>
    rcases kv with ⟨k0, v0⟩
    by_cases h : k0 = k
    · subst h
      simp [lookupKey]
    · simpa [lookupKey, h] using ih

theorem lookupKey_some_mem {β : Type} {k : String} {v : β} {o : List (String × β)}
    (h : lookupKey k o = some v) : (k, v) ∈ o := by
  induction o with
  | nil => simp [lookupKey] at h
  | cons kv rest ih =>
    rcases kv with ⟨k0, v0⟩
    by_cases hk : k0 = k
    · subst hk
      simp [lookupKey] at h
      simp [h]
    · rw [show lookupKey k ((k0, v0) :: rest) = lookupKey k rest by
        simp [lookupKey, hk]] at h
      exact List.mem_cons_of_mem _ (ih h)

theorem lookupKey_mapReplace {β : Type} (o : List (String × β)) (k : String) (v : β) :
    lookupKey k (o.map fun kv => if kv.1 = k then (k, v) else kv)
      = (lookupKey k o).map (fun _ => v) := by
  induction o with
  | nil => rfl
  | cons kv rest ih =>
    rcases kv with ⟨k0, v0⟩
    by_cases h : k0 = k
    · subst h
      simp only [List.map_cons, if_true]
      rw [show lookupKey k0 ((k0, v) ::
          rest.map fun kv => if kv.1 = k0 then (k0, v) else kv) = some v by
        simp [lookupKey]]
      rw [show lookupKey k0 ((k0, v0) :: rest) = some v0 by simp [lookupKey]]
      rfl
    · simp only [List.map_cons]
      rw [show ((if (k0, v0).1 = k then (k, v) else (k0, v0)) : String × β)
        = (k0, v0) by simp [h]]
      rw [show lookupKey k ((k0, v0) :: rest) = lookupKey k rest by
        simp [lookupKey, h]]
      rw [show lookupKey k ((k0, v0) ::
          rest.map fun kv => if kv.1 = k then (k, v) else kv)
        = lookupKey k (rest.map fun kv => if kv.1 = k then (k, v) else kv) by
        simp [lookupKey, h]]
      exact ih

theorem lookupKey_mapReplace_ne {β : Type} {k2 : String} (o : List (String × β))
    (k : String) (v : β) (hne : k2 ≠ k) :
    lookupKey k2 (o.map fun kv => if kv.1 = k then (k, v) else kv)
      = lookupKey k2 o := by
  induction o with
  | nil => rfl
  | cons kv rest ih =>
    rcases kv with ⟨k0, v0⟩
    simp only [List.map_cons]
    by_cases h : k0 = k
    · subst h
      have hk2 : ¬ k0 = k2 := fun hh => hne hh.symm
      rw [show ((if (k0, v0).1 = k0 then (k0, v) else (k0, v0)) : String × β)
        = (k0, v) by simp]
      rw [show lookupKey k2 ((k0, v) ::
          rest.map fun kv => if kv.1 = k0 then (k0, v) else kv)
        = lookupKey k2 (rest.map fun kv => if kv.1 = k0 then (k0, v) else kv) by
        simp [lookupKey, hk2]]
      rw [show lookupKey k2 ((k0, v0) :: rest) = lookupKey k2 rest by
        simp [lookupKey, hk2]]
      exact ih
    · rw [show ((if (k0, v0).1 = k then (k, v) else (k0, v0)) : String × β)
        = (k0, v0) by simp [h]]
      by_cases h2 : k0 = k2
      · subst h2
        simp [lookupKey]
      · rw [show lookupKey k2 ((k0, v0) ::
            rest.map fun kv => if kv.1 = k then (k, v) else kv)
          = lookupKey k2 (rest.map fun kv => if kv.1 = k then (k, v) else kv) by
          simp [lookupKey, h2]]
        rw [show lookupKey k2 ((k0, v0) :: rest) = lookupKey k2 rest by
          simp [lookupKey, h2]]
        exact ih

theorem lookupKey_objSet_self {β : Type} (o : List (String × β)) (k : String) (v : β) :
    lookupKey k (objSet o k v) = some v := by
  unfold objSet
  by_cases h : (lookupKey k o).isSome
  · rw [if_pos h, lookupKey_mapReplace]
    rcases Option.isSome_iff_exists.mp h with ⟨w, hw⟩
    simp [hw]
  · rw [if_neg h, lookupKey_append,
      Option.not_isSome_iff_eq_none.mp h]
    simp [lookupKey]

theorem lookupKey_objSet_ne {β : Type} {k2 k : String} (o : List (String × β))
    (v : β) (hne : k2 ≠ k) :
    lookupKey k2 (objSet o k v) = lookupKey k2 o := by
  unfold objSet
  by_cases h : (lookupKey k o).isSome
  · rw [if_pos h, lookupKey_mapReplace_ne o k v hne]
  · rw [if_neg h, lookupKey_append]
    have hk : ¬ k = k2 := fun hh => hne hh.symm
    simp [lookupKey, hk]

theorem mem_objSet {β : Type} {kv2 : String × β} {o : List (String × β)}
    {k : String} {v : β} (h : kv2 ∈ objSet o k v) :
    kv2 ∈ o ∨ kv2 = (k, v) := by
  unfold objSet at h
  by_cases hs : (lookupKey k o).isSome
  · rw [if_pos hs] at h
    rcases List.mem_map.mp h with ⟨kv0, hkv0, heq⟩
    by_cases h0 : kv0.1 = k
    · right; rw [if_pos h0] at heq; exact heq.symm
    · left; rw [if_neg h0] at heq; exact heq ▸ hkv0
  · rw [if_neg hs] at h
    rcases List.mem_append.mp h with h1 | h1
    · exact Or.inl h1
    · exact Or.inr (List.mem_singleton.mp h1)

/-- Core characterization of the reduce: the value found under a query key
is the value of the unique input entry whose snake_case key matches and
whose value is truthy, and otherwise whatever the accumulator held. -/
theorem lookupKey_foldl_buildStep (entries : List (String × JsValue))
    (acc : List (String × JsValue)) (k2 : String)
    (hn : (entries.map (fun kv => toSnakeCase kv.1)).Nodup) :
    lookupKey k2 (entries.foldl buildStep acc) =
      match entries.find?
          (fun kv => decide (toSnakeCase kv.1 = k2) && kv.2.truthy) with
      | some kv => some kv.2
      | none => lookupKey k2 acc := by
  induction entries generalizing acc with
  | nil => rfl
  | cons kv rest ih =>
    simp only [List.map_cons, List.nodup_cons] at hn
    obtain ⟨hnm, hrest⟩ := hn
    simp only [List.foldl_cons]
    by_cases ht : kv.2.truthy = true
    · by_cases hk : toSnakeCase kv.1 = k2
      · have hfr : rest.find?
            (fun kv => decide (toSnakeCase kv.1 = k2) && kv.2.truthy) = none := by
          rw [List.find?_eq_none]
          intro x hx
          simp only [Bool.and_eq_true, decide_eq_true_eq, not_and]
          intro hx2
          exact absurd (hk ▸ hx2 : toSnakeCase x.1 = toSnakeCase kv.1).symm
            (fun hh => hnm (hh ▸ List.mem_map_of_mem _ hx))
        rw [ih _ hrest, hfr,
          List.find?_cons_of_pos _ (by simp [hk, ht])]
        have : buildStep acc kv = objSet acc k2 kv.2 := by
          simp [buildStep, ht, hk]
        rw [this, lookupKey_objSet_self]
      · rw [ih _ hrest, List.find?_cons_of_neg _ (by simp [hk])]
        have : buildStep acc kv = objSet acc (toSnakeCase kv.1) kv.2 := by
          simp [buildStep, ht]
        rw [this, lookupKey_objSet_ne _ _ (fun hh => hk hh.symm)]
    · rw [show buildStep acc kv = acc by simp [buildStep, ht],
        ih _ hrest, List.find?_cons_of_neg _ (by simp [ht])]

/-- Every value stored by the reduce is truthy. -/
theorem buildStep_foldl_truthy (entries : List (String × JsValue))
    (acc : List (String × JsValue))
    (hacc : ∀ kv ∈ acc, kv.2.truthy = true) :
    ∀ kv ∈ entries.foldl buildStep acc, kv.2.truthy = true := by
  induction entries generalizing acc with
  | nil => exact hacc
  | cons kv rest ih =>
    simp only [List.foldl_cons]
    apply ih
    intro kv2 hkv2
    by_cases ht : kv.2.truthy = true
    · rw [show buildStep acc kv = objSet acc (toSnakeCase kv.1) kv.2 by
        simp [buildStep, ht]] at hkv2
      rcases mem_objSet hkv2 with h1 | h1
      · exact hacc _ h1
      · rw [h1]
        exact ht
    · rw [show buildStep acc kv = acc by simp [buildStep, ht]] at hkv2
      exact hacc _ hkv2

theorem buildApiFilters_values_truthy (entries : List (String × JsValue)) :
    ∀ kv ∈ buildApiFilters entries, kv.2.truthy = true :=
  buildStep_foldl_truthy entries [] (by simp)

/-- Default parameter object of PortSummaryReport: no filters, only the
initial sort configuration (already snake_case in the source state). -/
def portSummaryDefaultEntries : List (String × JsValue) :=
  [("sort_by", JsValue.str "smartbalance"), ("sort_order", JsValue.str "desc")]

/-- Counterexample for C10: with no filters set, the object sent by
PortSummaryReport contains the key chain_name with the empty-string value,
although no input key maps to chain_name with a truthy value — so the
entry-present-iff-value-truthy claim fails for PortSummaryReport. -/
theorem portSummary_chainName_counterexample :
    lookupKey "chain_name" (portSummaryApiFilters portSummaryDefaultEntries)
      = some (JsValue.str "") ∧
    (∀ kv ∈ portSummaryDefaultEntries, toSnakeCase kv.1 ≠ "chain_name") ∧
    (∀ kv ∈ portSummaryDefaultEntries, kv.2 ≠ JsValue.str "") := by
  refine ⟨by decide, by decide, by decide⟩

/-- C10 (amended): in the query object of SmartMoneyPerformanceReport an
entry is present exactly for the truthy-valued inputs, under the snake_case
key and with the value unchanged; PortSummaryReport behaves the same except
that it always adds chain_name with the empty-string value when no truthy
chainName filter produced one. -/
theorem apiFilters_snakecase_truthy (entries : List (String × JsValue))
    (hn : (entries.map (fun kv => toSnakeCase kv.1)).Nodup) :
    (∀ k2, (lookupKey k2 (buildApiFilters entries)).isSome = true ↔
        ∃ kv ∈ entries, toSnakeCase kv.1 = k2 ∧ kv.2.truthy = true) ∧
    (∀ kv ∈ entries, kv.2.truthy = true →
        lookupKey (toSnakeCase kv.1) (buildApiFilters entries) = some kv.2) ∧
    (∀ k2, k2 ≠ "chain_name" →
        lookupKey k2 (portSummaryApiFilters entries)
          = lookupKey k2 (buildApiFilters entries)) ∧
    (lookupKey "chain_name" (buildApiFilters entries) = none →
        lookupKey "chain_name" (portSummaryApiFilters entries)
          = some (JsValue.str "")) ∧
    (∀ v, lookupKey "chain_name" (buildApiFilters entries) = some v →
        lookupKey "chain_name" (portSummaryApiFilters entries) = some v) := by
  have hchar : ∀ k2, lookupKey k2 (buildApiFilters entries) =
      (entries.find?
        (fun kv => decide (toSnakeCase kv.1 = k2) && kv.2.truthy)).map
          Prod.snd := by
    intro k2
    rw [show buildApiFilters entries = entries.foldl buildStep [] from rfl,
      lookupKey_foldl_buildStep entries [] k2 hn]
    rcases hfind : entries.find?
      (fun kv => decide (toSnakeCase kv.1 = k2) && kv.2.truthy) with _ | kv <;>
      rw [hfind] <;> rfl
  refine ⟨?_, ?_, ?_, ?_, ?_⟩
  · intro k2
    rw [hchar k2, Option.isSome_map', List.find?_isSome]
    constructor
    · rintro ⟨kv, hkv, hp⟩
      simp only [Bool.and_eq_true, decide_eq_true_eq] at hp
      exact ⟨kv, hkv, hp.1, hp.2⟩
    · rintro ⟨kv, hkv, hsk, htr⟩
      exact ⟨kv, hkv, by simp [hsk, htr]⟩
  · intro kv hkv htr
    rw [hchar (toSnakeCase kv.1)]
    rcases hfind : entries.find?
        (fun kv2 => decide (toSnakeCase kv2.1 = toSnakeCase kv.1)
          && kv2.2.truthy) with _ | kv2
    · rw [List.find?_eq_none] at hfind
      have := hfind kv hkv
      simp [htr] at this
    · have hmem2 := List.mem_of_find?_eq_some hfind
      have hp2 := List.find?_some hfind
      simp only [Bool.and_eq_true, decide_eq_true_eq] at hp2
      have hkv2 : kv2 = kv :=
        List.inj_on_of_nodup_map hn hmem2 hkv hp2.1
      rw [hfind, hkv2]
      rfl
  · intro k2 hk2
    unfold portSummaryApiFilters
    rcases hcn : lookupKey "chain_name" (buildApiFilters entries) with _ | v
    · simp only [hcn]
      exact lookupKey_objSet_ne _ _ hk2
    · have htr : v.truthy = true := by
        have := buildApiFilters_values_truthy entries _ (lookupKey_some_mem hcn)
        exact this
      simp only [hcn, htr, if_true]
  · intro hcn
    unfold portSummaryApiFilters
    simp only [hcn]
    exact lookupKey_objSet_self _ _ _
  · intro v hcn
    unfold portSummaryApiFilters
    have htr : v.truthy = true :=
      buildApiFilters_values_truthy entries _ (lookupKey_some_mem hcn)
    simp only [hcn, htr, if_true]

/-- Concrete filter entries exercising the amended C10 theorem: a camelCase
key with a truthy value, a falsy value, and the sort configuration. -/
def sampleFilterEntries : List (String × JsValue) :=
  [("walletAddress", JsValue.str "abc"),
   ("minAmount", JsValue.num 0),
   ("sort_by", JsValue.str "profitandloss")]

/-- Witness for the amended C10 at concrete entries. -/
theorem apiFilters_snakecase_truthy_witness :
    ((lookupKey "wallet_address" (buildApiFilters sampleFilterEntries)).isSome
        = true ↔
      ∃ kv ∈ sampleFilterEntries,
        toSnakeCase kv.1 = "wallet_address" ∧ kv.2.truthy = true) ∧
    (lookupKey "chain_name" (buildApiFilters sampleFilterEntries) = none →
      lookupKey "chain_name" (portSummaryApiFilters sampleFilterEntries)
        = some (JsValue.str "")) :=
  ⟨(apiFilters_snakecase_truthy sampleFilterEntries (by decide)).1
      "wallet_address",
    (apiFilters_snakecase_truthy sampleFilterEntries (by decide)).2.2.2.1⟩

/-! ## Part 3: BoundedTTLCache

The cache implementation file (cache/cache_manager.py) is not part of the
source tree; only its deployment guide and configuration are.  The
definitions below are therefore modelled from the specification. -/

/-- Modelled from the spec: an Entry of the BoundedTTLCache holds a value
and its absolute expiration time (insertion time + TTL).  The recency
marker of the spec is represented by the position of the entry in the
cache's list, most-recently-used first; the implementation file
cache/cache_manager.py is missing from the source tree. -/
structure Entry (V : Type) where
  value : V
  expiresAt : Nat
deriving DecidableEq

/-- Modelled from the spec: a BoundedTTLCache is a bounded key-value store
with TTL expiration and LRU eviction.  Entries are kept most-recently-used
first, so the least-recently-used entry is the last one; the implementation
file cache/cache_manager.py is missing from the source tree. -/
structure BoundedTTLCache (V : Type) where
  capacity : Nat
  ttl : Nat
  entries : List (String × Entry V)
deriving DecidableEq

namespace BoundedTTLCache

variable {V : Type}

/-- Modelled from the spec: a freshly constructed cache with the configured
capacity and default TTL and no entries. -/
def empty (capacity ttl : Nat) : BoundedTTLCache V :=
  ⟨capacity, ttl, []⟩

/-- Removal of every entry stored under a key (under the no-duplicate-keys
invariant, of the single such entry). -/
def removeKey (key : String) (es : List (String × Entry V)) :
    List (String × Entry V) :=
  es.filter fun kv => decide (kv.1 ≠ key)

/-- Modelled from the spec: get(key) returns (value, found); found is false
if the key is absent or the entry has expired (an expired entry is
logically absent even if not yet physically purged, and a read does not
purge it); a hit moves the entry to the most-recently-used position.
A value set with TTL T at time t0 expires at t0 + T, is a hit strictly
before that time and a miss from that time on. -/
def get (c : BoundedTTLCache V) (key : String) (now : Nat) :
    Option V × BoundedTTLCache V :=
  match lookupKey key c.entries with
  | none => (none, c)
  | some e =>
    if e.expiresAt ≤ now then (none, c)
    else (some e.value, { c with entries := (key, e) :: removeKey key c.entries })

/-- Modelled from the spec: set(key, value, ttlOverride?) inserts or
replaces; the new entry expires at now + (ttlOverride or ttl) and becomes
most-recently-used; when inserting a new key into a full cache the current
least-recently-used entry (the last one) is evicted first. -/
def set (c : BoundedTTLCache V) (key : String) (v : V) (now : Nat)
    (ttlOverride : Option Nat) : BoundedTTLCache V :=
  let e : Entry V := ⟨v, now + ttlOverride.getD c.ttl⟩
  if (lookupKey key c.entries).isSome then
    { c with entries := (key, e) :: removeKey key c.entries }
  else
    let purged :=
      if c.capacity ≤ c.entries.length then c.entries.dropLast else c.entries
    { c with entries := (key, e) :: purged }

/-- Modelled from the spec: delete(key) removes one entry. -/
def delete (c : BoundedTTLCache V) (key : String) : BoundedTTLCache V :=
  { c with entries := removeKey key c.entries }

/-- Modelled from the spec: clear() removes all entries, resetting size to
zero. -/
def clear (c : BoundedTTLCache V) : BoundedTTLCache V :=
  { c with entries := [] }

/-- Modelled from the spec: size() is the number of resident entries. -/
def size (c : BoundedTTLCache V) : Nat :=
  c.entries.length

/-- Keys currently resident, most-recently-used first. -/
def keys (c : BoundedTTLCache V) : List String :=
  c.entries.map Prod.fst

end BoundedTTLCache

/-- An externally observable cache operation. -/
inductive CacheOp (V : Type) where
  | get (key : String) (now : Nat) : CacheOp V
  | set (key : String) (v : V) (now : Nat) (ttlOverride : Option Nat) : CacheOp V
  | delete (key : String) : CacheOp V
  | clear : CacheOp V

namespace BoundedTTLCache

/-- State reached after one operation (for get, the post-read cache). -/
def applyOp {V : Type} (c : BoundedTTLCache V) : CacheOp V → BoundedTTLCache V
  | .get key now => (c.get key now).2
  | .set key v now tto => c.set key v now tto
  | .delete key => c.delete key
  | .clear => c.clear

/-- State reached after a sequence of operations. -/
def applyOps {V : Type} (c : BoundedTTLCache V) (ops : List (CacheOp V)) :
    BoundedTTLCache V :=
  ops.foldl applyOp c

end BoundedTTLCache

namespace BoundedTTLCache

variable {V : Type}

theorem removeKey_sublist (key : String) (es : List (String × Entry V)) :
    (removeKey key es).Sublist es :=
  List.filter_sublist es

theorem notMem_map_fst_removeKey (key : String) (es : List (String × Entry V)) :
    key ∉ (removeKey key es).map Prod.fst := by
  intro h
  rcases List.mem_map.mp h with ⟨kv, hkv, hfst⟩
  have := List.of_mem_filter hkv
  simp only [decide_eq_true_eq] at this
  exact this hfst

theorem length_removeKey_lt (key : String) (es : List (String × Entry V))
    (hs : (lookupKey key es).isSome = true) :
    (removeKey key es).length < es.length := by
  rcases Option.isSome_iff_exists.mp hs with ⟨e, he⟩
  refine List.length_filter_lt_length_iff_exists.mpr
    ⟨(key, e), lookupKey_some_mem he, by simp⟩

theorem length_removeKey_of_nodup (key : String) (es : List (String × Entry V))
    (hn : (es.map Prod.fst).Nodup) (hs : (lookupKey key es).isSome = true) :
    (removeKey key es).length + 1 = es.length := by
  induction es with
  | nil => simp [lookupKey] at hs
  | cons kv rest ih =>
    rcases kv with ⟨k0, e0⟩
    simp only [List.map_cons, List.nodup_cons] at hn
    by_cases hk : k0 = key
    · subst hk
      have hall : removeKey k0 ((k0, e0) :: rest) = rest := by
        unfold removeKey
        rw [List.filter_cons_of_neg (by simp)]
        apply List.filter_eq_self.mpr
        intro kv2 hkv2
        simp only [decide_eq_true_eq]
        intro hfst
        exact hn.1 (hfst ▸ List.mem_map_of_mem _ hkv2)
      simp [hall]
    · have hstep : removeKey key ((k0, e0) :: rest)
          = (k0, e0) :: removeKey key rest := by
        unfold removeKey
        rw [List.filter_cons_of_pos (by simp [hk])]
      have hs2 : (lookupKey key rest).isSome = true := by
        rw [show lookupKey key ((k0, e0) :: rest) = lookupKey key rest by
          simp [lookupKey, hk]] at hs
        exact hs
      simp only [hstep, List.length_cons]
      rw [Nat.succ_add]
      exact congrArg Nat.succ (ih hn.2 hs2)

theorem set_capacity_eq (c : BoundedTTLCache V) (key : String) (v : V)
    (now : Nat) (tto : Option Nat) :
    (c.set key v now tto).capacity = c.capacity := by
  unfold set
  by_cases hs : (lookupKey key c.entries).isSome = true <;> simp [hs]

theorem set_size_le (c : BoundedTTLCache V) (key : String) (v : V)
    (now : Nat) (tto : Option Nat)
    (hcap : 1 ≤ c.capacity) (hsz : c.size ≤ c.capacity) :
    (c.set key v now tto).size ≤ c.capacity := by
  have hsz2 : c.entries.length ≤ c.capacity := hsz
  unfold set size
  by_cases hs : (lookupKey key c.entries).isSome = true
  · simp only [hs, if_true, List.length_cons]
    exact le_trans (Nat.succ_le_of_lt (length_removeKey_lt key c.entries hs)) hsz2
  · by_cases hfull : c.capacity ≤ c.entries.length
    · have hlen : c.entries.length = c.capacity := le_antisymm hsz2 hfull
      simp only [hs, Bool.false_eq_true, if_false, hfull, if_true,
        List.length_cons, List.length_dropLast]
      omega
    · simp only [hs, Bool.false_eq_true, if_false, hfull, List.length_cons]
      omega

/-- Sequence of raw set calls. -/
def setMany (c : BoundedTTLCache V)
    (ops : List (String × V × Nat × Option Nat)) : BoundedTTLCache V :=
  ops.foldl (fun acc op => acc.set op.1 op.2.1 op.2.2.1 op.2.2.2) c

theorem setMany_size_le (c : BoundedTTLCache V)
    (ops : List (String × V × Nat × Option Nat))
    (hcap : 1 ≤ c.capacity) (hsz : c.size ≤ c.capacity) :
    (c.setMany ops).size ≤ c.capacity ∧ (c.setMany ops).capacity = c.capacity := by
  induction ops generalizing c with
  | nil => exact ⟨hsz, rfl⟩
  | cons op rest ih =>
    have hcap2 := set_capacity_eq c op.1 op.2.1 op.2.2.1 op.2.2.2
    have hsz2 := set_size_le c op.1 op.2.1 op.2.2.1 op.2.2.2 hcap hsz
    have := ih (c.set op.1 op.2.1 op.2.2.1 op.2.2.2)
      (hcap2 ▸ hcap) (by rw [hcap2]; exact hsz2)
    exact ⟨by simpa [setMany] using (hcap2 ▸ this.1),
      by simpa [setMany, hcap2] using this.2⟩

end BoundedTTLCache

namespace BoundedTTLCache

variable {V : Type}

theorem set_entries_present (c : BoundedTTLCache V) (key : String) (v : V)
    (now : Nat) (tto : Option Nat)
    (hs : (lookupKey key c.entries).isSome = true) :
    (c.set key v now tto).entries
      = (key, ⟨v, now + tto.getD c.ttl⟩) :: removeKey key c.entries := by
  unfold set
  simp only [hs, if_true]

theorem set_entries_new_full (c : BoundedTTLCache V) (key : String) (v : V)
    (now : Nat) (tto : Option Nat)
    (hs : lookupKey key c.entries = none) (hfull : c.capacity ≤ c.entries.length) :
    (c.set key v now tto).entries
      = (key, ⟨v, now + tto.getD c.ttl⟩) :: c.entries.dropLast := by
  unfold set
  simp only [hs, Option.isSome_none, Bool.false_eq_true, if_false, hfull, if_true]

theorem set_entries_new_room (c : BoundedTTLCache V) (key : String) (v : V)
    (now : Nat) (tto : Option Nat)
    (hs : lookupKey key c.entries = none) (hroom : c.entries.length < c.capacity) :
    (c.set key v now tto).entries
      = (key, ⟨v, now + tto.getD c.ttl⟩) :: c.entries := by
  unfold set
  simp only [hs, Option.isSome_none, Bool.false_eq_true, if_false,
    Nat.not_le.mpr hroom]

theorem lookupKey_set_self (c : BoundedTTLCache V) (key : String) (v : V)
    (now : Nat) (tto : Option Nat) :
    lookupKey key (c.set key v now tto).entries
      = some ⟨v, now + tto.getD c.ttl⟩ := by
  by_cases hs : (lookupKey key c.entries).isSome = true
  · rw [set_entries_present c key v now tto hs]
    simp [lookupKey]
  · rw [Option.not_isSome_iff_eq_none] at hs
    by_cases hfull : c.capacity ≤ c.entries.length
    · rw [set_entries_new_full c key v now tto hs hfull]
      simp [lookupKey]
    · rw [set_entries_new_room c key v now tto hs (Nat.not_le.mp hfull)]
      simp [lookupKey]

theorem set_ttl_eq (c : BoundedTTLCache V) (key : String) (v : V)
    (now : Nat) (tto : Option Nat) :
    (c.set key v now tto).ttl = c.ttl := by
  unfold set
  by_cases hs : (lookupKey key c.entries).isSome = true <;> simp [hs]

end BoundedTTLCache

/-- C1: a set call on a validly configured cache (capacity at least 1)
preserves the size-at-most-capacity invariant, and so does every sequence
of set calls; a set that inserts a new key into a cache already at capacity
evicts exactly one entry, the least recently accessed one (the last entry
of the recency order), as part of the insert. -/
theorem boundedTTLCache_capacity_and_lru_eviction {V : Type}
    (c : BoundedTTLCache V) (key : String) (v : V) (now : Nat) (tto : Option Nat)
    (ops : List (String × V × Nat × Option Nat))
    (hcap : 1 ≤ c.capacity) (hsz : c.size ≤ c.capacity) :
    (c.set key v now tto).size ≤ c.capacity ∧
    (c.setMany ops).size ≤ c.capacity ∧
    (lookupKey key c.entries = none → c.size = c.capacity →
      (c.set key v now tto).entries
        = (key, ⟨v, now + tto.getD c.ttl⟩) :: c.entries.dropLast ∧
      (c.set key v now tto).size = c.capacity) := by
  refine ⟨BoundedTTLCache.set_size_le c key v now tto hcap hsz,
    (BoundedTTLCache.setMany_size_le c ops hcap hsz).1, ?_⟩
  intro hnone hfull
  have hfull2 : c.capacity ≤ c.entries.length := le_of_eq hfull.symm
  have heq := BoundedTTLCache.set_entries_new_full c key v now tto hnone hfull2
  refine ⟨heq, ?_⟩
  show (c.set key v now tto).entries.length = c.capacity
  rw [heq]
  simp only [List.length_cons, List.length_dropLast]
  have : c.entries.length = c.capacity := hfull ▸ rfl
  omega

/-- Concrete full cache used by the C1 witness. -/
def sampleFullCache : BoundedTTLCache Nat :=
  ⟨2, 10, [("a", ⟨5, 10⟩), ("b", ⟨6, 10⟩)]⟩

/-- Witness for C1: a fresh key inserted into a full two-entry cache evicts
exactly the least-recently-used entry. -/
theorem boundedTTLCache_capacity_and_lru_eviction_witness :
    1 ≤ sampleFullCache.capacity ∧
    sampleFullCache.size ≤ sampleFullCache.capacity ∧
    ((sampleFullCache.set "c" 7 0 none).size ≤ sampleFullCache.capacity ∧
      (sampleFullCache.setMany []).size ≤ sampleFullCache.capacity ∧
      (lookupKey "c" sampleFullCache.entries = none →
        sampleFullCache.size = sampleFullCache.capacity →
        (sampleFullCache.set "c" 7 0 none).entries
          = ("c", ⟨7, 0 + (none : Option Nat).getD sampleFullCache.ttl⟩)
            :: sampleFullCache.entries.dropLast ∧
        (sampleFullCache.set "c" 7 0 none).size = sampleFullCache.capacity)) :=
  ⟨by decide, by decide,
    boundedTTLCache_capacity_and_lru_eviction sampleFullCache "c" 7 0 none []
      (by decide) (by decide)⟩

/-- C2: a value set with TTL T at time t0 is a hit for every get strictly
before t0 + T and a miss for every get from t0 + T on; the miss neither
recomputes anything (get is a pure read) nor physically purges the entry,
which remains resident while being reported absent. -/
theorem boundedTTLCache_ttl_correctness {V : Type}
    (c : BoundedTTLCache V) (key : String) (v : V) (t0 T t1 : Nat) :
    (t1 < t0 + T →
      ((c.set key v t0 (some T)).get key t1).1 = some v) ∧
    (t0 + T ≤ t1 →
      ((c.set key v t0 (some T)).get key t1).1 = none ∧
      ((c.set key v t0 (some T)).get key t1).2 = c.set key v t0 (some T) ∧
      lookupKey key (c.set key v t0 (some T)).entries = some ⟨v, t0 + T⟩) := by
  have hl : lookupKey key (c.set key v t0 (some T)).entries
      = some ⟨v, t0 + T⟩ := by
    have := BoundedTTLCache.lookupKey_set_self c key v t0 (some T)
    simpa using this
  constructor
  · intro hlt
    unfold BoundedTTLCache.get
    rw [hl]
    simp only [Nat.not_le.mpr hlt, if_false]
  · intro hge
    unfold BoundedTTLCache.get
    rw [hl]
    simp [hge]

/-- Witness for C2: a value set at time 5 with TTL 7 hits at time 11 and
misses at time 12 while still resident. -/
theorem boundedTTLCache_ttl_correctness_witness :
    (11 < 5 + 7 ∧
      (((BoundedTTLCache.empty 10 100 : BoundedTTLCache Nat).set
        "k" 42 5 (some 7)).get "k" 11).1 = some 42) ∧
    (5 + 7 ≤ 12 ∧
      (((BoundedTTLCache.empty 10 100 : BoundedTTLCache Nat).set
        "k" 42 5 (some 7)).get "k" 12).1 = none) :=
  ⟨⟨by decide,
      (boundedTTLCache_ttl_correctness
        (BoundedTTLCache.empty 10 100) "k" 42 5 7 11).1 (by decide)⟩,
    ⟨by decide,
      ((boundedTTLCache_ttl_correctness
        (BoundedTTLCache.empty 10 100) "k" 42 5 7 12).2 (by decide)).1⟩⟩

namespace BoundedTTLCache

variable {V : Type}

theorem nodup_map_fst_removeKey (key : String) (es : List (String × Entry V))
    (hn : (es.map Prod.fst).Nodup) : ((removeKey key es).map Prod.fst).Nodup :=
  ((removeKey_sublist key es).map Prod.fst).nodup hn

theorem nodup_keys_cons_removeKey (key : String) (e : Entry V)
    (es : List (String × Entry V)) (hn : (es.map Prod.fst).Nodup) :
    (((key, e) :: removeKey key es).map Prod.fst).Nodup := by
  simp only [List.map_cons, List.nodup_cons]
  exact ⟨notMem_map_fst_removeKey key es, nodup_map_fst_removeKey key es hn⟩

theorem nodup_keys_get (c : BoundedTTLCache V) (key : String) (now : Nat)
    (hn : c.keys.Nodup) : ((c.get key now).2.keys).Nodup := by
  unfold get
  rcases hl : lookupKey key c.entries with _ | e
  · exact hn
  · by_cases hexp : e.expiresAt ≤ now
    · simp only [hexp, if_true]
      exact hn
    · simp only [hexp, if_false, Bool.false_eq_true]
      exact nodup_keys_cons_removeKey key e c.entries hn

theorem nodup_keys_set (c : BoundedTTLCache V) (key : String) (v : V)
    (now : Nat) (tto : Option Nat)
    (hn : c.keys.Nodup) : ((c.set key v now tto).keys).Nodup := by
  by_cases hs : (lookupKey key c.entries).isSome = true
  · rw [show (c.set key v now tto).keys
        = ((key, ⟨v, now + tto.getD c.ttl⟩) :: removeKey key c.entries).map
          Prod.fst by
      unfold keys
      rw [set_entries_present c key v now tto hs]]
    exact nodup_keys_cons_removeKey key _ c.entries hn
  · rw [Option.not_isSome_iff_eq_none] at hs
    have hnm : key ∉ c.entries.map Prod.fst :=
      (lookupKey_eq_none_iff key c.entries).mp hs
    by_cases hfull : c.capacity ≤ c.entries.length
    · rw [show (c.set key v now tto).keys
          = ((key, ⟨v, now + tto.getD c.ttl⟩) :: c.entries.dropLast).map
            Prod.fst by
        unfold keys
        rw [set_entries_new_full c key v now tto hs hfull]]
      simp only [List.map_cons, List.nodup_cons]
      refine ⟨fun hm => hnm ?_, ((c.entries.dropLast_sublist).map Prod.fst).nodup hn⟩
      exact ((c.entries.dropLast_sublist).map Prod.fst).mem hm
    · rw [show (c.set key v now tto).keys
          = ((key, ⟨v, now + tto.getD c.ttl⟩) :: c.entries).map Prod.fst by
        unfold keys
        rw [set_entries_new_room c key v now tto hs (Nat.not_le.mp hfull)]]
      simp only [List.map_cons, List.nodup_cons]
      exact ⟨hnm, hn⟩

theorem nodup_keys_applyOp (c : BoundedTTLCache V) (op : CacheOp V)
    (hn : c.keys.Nodup) : ((c.applyOp op).keys).Nodup := by
  cases op with
  | get key now => exact nodup_keys_get c key now hn
  | set key v now tto => exact nodup_keys_set c key v now tto hn
  | delete key =>
    exact ((removeKey_sublist key c.entries).map Prod.fst).nodup hn
  | clear => exact List.nodup_nil

theorem nodup_keys_applyOps (c : BoundedTTLCache V) (ops : List (CacheOp V))
    (hn : c.keys.Nodup) : ((c.applyOps ops).keys).Nodup := by
  induction ops generalizing c with
  | nil => exact hn
  | cons op rest ih => exact ih (c.applyOp op) (nodup_keys_applyOp c op hn)

end BoundedTTLCache

/-- C7: every cache reachable from an empty cache has no two entries with
the same key, and a set on an already-present key replaces its value, puts
the entry at the most-recently-used position, resets the expiration to
now + (ttlOverride or ttl) and leaves the size unchanged. -/
theorem boundedTTLCache_unique_keys_and_reinsertion {V : Type}
    (cap ttl : Nat) (ops : List (CacheOp V))
    (c : BoundedTTLCache V) (key : String) (v : V) (now : Nat) (tto : Option Nat)
    (hn : c.keys.Nodup) (hpresent : (lookupKey key c.entries).isSome = true) :
    (((BoundedTTLCache.empty cap ttl : BoundedTTLCache V).applyOps ops).keys).Nodup ∧
    lookupKey key (c.set key v now tto).entries
      = some ⟨v, now + tto.getD c.ttl⟩ ∧
    (c.set key v now tto).entries.head?
      = some (key, ⟨v, now + tto.getD c.ttl⟩) ∧
    (c.set key v now tto).size = c.size := by
  refine ⟨BoundedTTLCache.nodup_keys_applyOps _ ops List.nodup_nil,
    BoundedTTLCache.lookupKey_set_self c key v now tto, ?_, ?_⟩
  · rw [BoundedTTLCache.set_entries_present c key v now tto hpresent]
    rfl
  · show (c.set key v now tto).entries.length = c.entries.length
    rw [BoundedTTLCache.set_entries_present c key v now tto hpresent]
    simp only [List.length_cons]
    exact BoundedTTLCache.length_removeKey_of_nodup key c.entries hn hpresent

/-- Witness for C7 at the concrete full cache, re-inserting a present key. -/
theorem boundedTTLCache_unique_keys_and_reinsertion_witness :
    sampleFullCache.keys.Nodup ∧
    (lookupKey "a" sampleFullCache.entries).isSome = true ∧
    ((((BoundedTTLCache.empty 2 10 : BoundedTTLCache Nat).applyOps []).keys).Nodup ∧
      lookupKey "a" (sampleFullCache.set "a" 9 3 (some 4)).entries
        = some ⟨9, 3 + (some 4 : Option Nat).getD sampleFullCache.ttl⟩ ∧
      (sampleFullCache.set "a" 9 3 (some 4)).entries.head?
        = some ("a", ⟨9, 3 + (some 4 : Option Nat).getD sampleFullCache.ttl⟩) ∧
      (sampleFullCache.set "a" 9 3 (some 4)).size = sampleFullCache.size) :=
  ⟨by decide, by decide,
    boundedTTLCache_unique_keys_and_reinsertion 2 10 [] sampleFullCache
      "a" 9 3 (some 4) (by decide) (by decide)⟩

namespace BoundedTTLCache

variable {V : Type}

/-- Inserting a list of key-value pairs in order, all at one time, with the
default TTL. -/
def insertAll (c : BoundedTTLCache V) (ops : List (String × V)) (now : Nat) :
    BoundedTTLCache V :=
  ops.foldl (fun acc kv => acc.set kv.1 kv.2 now none) c

theorem insertAll_capacity (c : BoundedTTLCache V) (ops : List (String × V))
    (now : Nat) : (c.insertAll ops now).capacity = c.capacity := by
  induction ops generalizing c with
  | nil => rfl
  | cons kv rest ih =>
    calc ((c.set kv.1 kv.2 now none).insertAll rest now).capacity
        = (c.set kv.1 kv.2 now none).capacity := ih _
      _ = c.capacity := set_capacity_eq c kv.1 kv.2 now none

theorem length_keys (c : BoundedTTLCache V) : c.keys.length = c.entries.length :=
  List.length_map _ _

theorem get_miss_of_lookup_none (c : BoundedTTLCache V) (key : String)
    (now : Nat) (h : lookupKey key c.entries = none) :
    (c.get key now).1 = none ∧ (c.get key now).2 = c := by
  unfold get
  rw [h]
  exact ⟨rfl, rfl⟩

theorem get_hit_inv {c : BoundedTTLCache V} {key : String} {now : Nat} {v : V}
    (h : (c.get key now).1 = some v) :
    ∃ e : Entry V, lookupKey key c.entries = some e ∧ e.value = v ∧
      ¬ e.expiresAt ≤ now ∧
      (c.get key now).2
        = { c with entries := (key, e) :: removeKey key c.entries } := by
  unfold get at h ⊢
  rcases hl : lookupKey key c.entries with _ | e
  · rw [hl] at h
    simp at h
  · rw [hl] at h
    by_cases hexp : e.expiresAt ≤ now
    · simp [hexp] at h
    · refine ⟨e, rfl, ?_, hexp, ?_⟩
      · simpa [hexp] using h
      · simp [hexp]

/-- The keys resident after inserting distinct fresh keys into an empty
cache are the most recent capacity-many of them, in reverse insertion
order. -/
theorem keys_insertAll_empty (cap ttl now : Nat) (ops : List (String × V))
    (hcap : 1 ≤ cap) (hn : (ops.map Prod.fst).Nodup) :
    ((BoundedTTLCache.empty cap ttl : BoundedTTLCache V).insertAll ops now).keys
      = ((ops.map Prod.fst).reverse).take cap := by
  induction ops using List.reverseRecOn with
  | nil => simp [insertAll, keys, empty]
  | append_singleton l kv ih =>
    have hmap : (l ++ [kv]).map Prod.fst = l.map Prod.fst ++ [kv.1] := by
      simp
    rw [hmap] at hn
    rw [List.nodup_append] at hn
    have hnl : (l.map Prod.fst).Nodup := hn.1
    have hfreshl : kv.1 ∉ l.map Prod.fst := by
      intro hmem
      exact hn.2.2 hmem (List.mem_singleton.mpr rfl)
    have hkeys := ih hnl
    have hstep : (BoundedTTLCache.empty cap ttl :
          BoundedTTLCache V).insertAll (l ++ [kv]) now
        = ((BoundedTTLCache.empty cap ttl :
          BoundedTTLCache V).insertAll l now).set kv.1 kv.2 now none := by
      unfold insertAll
      rw [List.foldl_append]
      rfl
    set ck := (BoundedTTLCache.empty cap ttl : BoundedTTLCache V).insertAll l now
      with hck
    have hcapck : ck.capacity = cap := insertAll_capacity _ l now
    have hlenk : ck.entries.length
        = ((l.map Prod.fst).reverse.take cap).length := by
      rw [← length_keys, hkeys]
    have hlen2 : ck.entries.length = cap ⊓ (l.map Prod.fst).length := by
      rw [hlenk, List.length_take, List.length_reverse]
    have hfresh : kv.1 ∉ ck.keys := by
      rw [hkeys]
      intro hmem
      exact hfreshl (List.mem_reverse.mp (List.mem_of_mem_take hmem))
    have hlook : lookupKey kv.1 ck.entries = none :=
      (lookupKey_eq_none_iff kv.1 ck.entries).mpr hfresh
    rw [hstep, hmap, List.reverse_append, List.reverse_singleton]
    by_cases hfull : cap ≤ (l.map Prod.fst).length
    · have hlenck : ck.entries.length = cap := by
        rw [hlen2]
        omega
      have hfullck : ck.capacity ≤ ck.entries.length := by
        rw [hcapck, hlenck]
      have hset := set_entries_new_full ck kv.1 kv.2 now none hlook hfullck
      show ((ck.set kv.1 kv.2 now none).entries.map Prod.fst) = _
      rw [hset]
      simp only [List.map_cons, List.map_dropLast]
      have hkeys2 : ck.entries.map Prod.fst
          = (l.map Prod.fst).reverse.take cap := hkeys
      rw [hkeys2]
      have hdl : ((l.map Prod.fst).reverse.take cap).dropLast
          = (l.map Prod.fst).reverse.take (cap - 1) := by
        rw [List.dropLast_eq_take, List.length_take, List.length_reverse]
        rw [List.take_take]
        congr 1
        omega
      rw [hdl]
      rw [List.singleton_append, List.take_cons hcap]
    · have hroomck : ck.entries.length < ck.capacity := by
        rw [hcapck, hlen2]
        omega
      have hset := set_entries_new_room ck kv.1 kv.2 now none hlook hroomck
      show ((ck.set kv.1 kv.2 now none).entries.map Prod.fst) = _
      rw [hset]
      simp only [List.map_cons]
      have hkeys2 : ck.entries.map Prod.fst
          = (l.map Prod.fst).reverse.take cap := hkeys
      rw [hkeys2]
      have hwhole : (l.map Prod.fst).reverse.take cap
          = (l.map Prod.fst).reverse := by
        apply List.take_of_length_le
        rw [List.length_reverse]
        omega
      rw [hwhole, List.singleton_append, List.take_cons hcap]
      rw [List.take_of_length_le (by rw [List.length_reverse]; omega)]

end BoundedTTLCache

/-- The spec scenario: capacity 2, TTL 1000s, set(A,1), set(B,2), get(A),
set(C,3). -/
def lruScenarioCache : BoundedTTLCache Nat :=
  (((((BoundedTTLCache.empty 2 1000).set "A" 1 0 none).set "B" 2 0 none).get
    "A" 0).2).set "C" 3 0 none

/-- Insertion sequence used by the C4 witness. -/
def lruOps : List (String × Nat) :=
  [("A", 1), ("B", 2), ("C", 3)]

/-- Full cache used by the C4 witness for the touch-protection conjunct. -/
def protectionCache : BoundedTTLCache Nat :=
  ⟨2, 1000, [("A", ⟨1, 1000⟩), ("B", ⟨2, 1000⟩)]⟩

/-- C4: the concrete scenario evicts B and answers get(A)=1, get(B)=miss,
get(C)=3; in general inserting capacity+1 distinct keys into an empty cache
with no intervening reads evicts exactly the first-inserted key while all
later keys stay resident, and reading a key just before an
eviction-triggering insert keeps it resident, the insert evicting the last
entry of the post-read recency order instead. -/
theorem boundedTTLCache_lru_correctness {V : Type}
    (cap ttl now now2 : Nat) (ops : List (String × V))
    (c : BoundedTTLCache V) (k knew : String) (v vnew : V) (now3 now4 : Nat)
    (hcap : 1 ≤ cap) (hops : (ops.map Prod.fst).Nodup)
    (hlen : ops.length = cap + 1)
    (hn2 : c.keys.Nodup) (hfull2 : c.size = c.capacity)
    (hcap2 : 2 ≤ c.capacity)
    (hhit : (c.get k now3).1 = some v) (hfresh : knew ∉ c.keys) :
    ((lruScenarioCache.get "A" 0).1 = some 1 ∧
      (lruScenarioCache.get "B" 0).1 = none ∧
      (lruScenarioCache.get "C" 0).1 = some 3 ∧
      lruScenarioCache.keys = ["C", "A"]) ∧
    (∀ k0 krest, ops.map Prod.fst = k0 :: krest →
      k0 ∉ ((BoundedTTLCache.empty cap ttl :
          BoundedTTLCache V).insertAll ops now).keys ∧
      (((BoundedTTLCache.empty cap ttl :
          BoundedTTLCache V).insertAll ops now).get k0 now2).1 = none ∧
      ∀ k2 ∈ krest, k2 ∈ ((BoundedTTLCache.empty cap ttl :
          BoundedTTLCache V).insertAll ops now).keys) ∧
    (((c.get k now3).2.set knew vnew now4 none).entries
        = (knew, ⟨vnew, now4 + c.ttl⟩) :: ((c.get k now3).2).entries.dropLast ∧
      k ∈ ((c.get k now3).2.set knew vnew now4 none).keys) := by
  refine ⟨⟨by decide, by decide, by decide, by decide⟩, ?_, ?_⟩
  · intro k0 krest hmap
    have hkeys := BoundedTTLCache.keys_insertAll_empty
      (V := V) cap ttl now ops hcap hops
    rw [hmap] at hkeys
    have hlkr : krest.length = cap := by
      have hml : (ops.map Prod.fst).length = cap + 1 := by
        rw [List.length_map, hlen]
      rw [hmap] at hml
      simpa using hml
    have htake : ((k0 :: krest).reverse).take cap = krest.reverse := by
      rw [List.reverse_cons]
      exact List.take_left' (by simp [hlkr])
    rw [htake] at hkeys
    have hnodup := hops
    rw [hmap, List.nodup_cons] at hnodup
    have hk0 : k0 ∉ ((BoundedTTLCache.empty cap ttl :
        BoundedTTLCache V).insertAll ops now).keys := by
      rw [hkeys]
      intro hm
      exact hnodup.1 (List.mem_reverse.mp hm)
    refine ⟨hk0, ?_, ?_⟩
    · have hlk : lookupKey k0 ((BoundedTTLCache.empty cap ttl :
          BoundedTTLCache V).insertAll ops now).entries = none :=
        (lookupKey_eq_none_iff _ _).mpr hk0
      exact (BoundedTTLCache.get_miss_of_lookup_none _ k0 now2 hlk).1
    · intro k2 hk2
      rw [hkeys]
      exact List.mem_reverse.mpr hk2
  · obtain ⟨e, hl, hev, hexp, hcg⟩ := BoundedTTLCache.get_hit_inv hhit
    have hentries : (c.get k now3).2.entries
        = (k, e) :: BoundedTTLCache.removeKey k c.entries := by rw [hcg]
    have httl : (c.get k now3).2.ttl = c.ttl := by rw [hcg]
    have hcapg : (c.get k now3).2.capacity = c.capacity := by rw [hcg]
    have hsome : (lookupKey k c.entries).isSome = true := by rw [hl]; rfl
    have hlenr := BoundedTTLCache.length_removeKey_of_nodup k c.entries hn2 hsome
    have hclen : c.entries.length = c.capacity := hfull2
    have hkin : k ∈ c.keys := by
      have hm := lookupKey_some_mem hl
      exact List.mem_map_of_mem Prod.fst hm
    have hne : knew ≠ k := fun hh => hfresh (hh ▸ hkin)
    have hfreshg : knew ∉ (c.get k now3).2.entries.map Prod.fst := by
      rw [hentries]
      simp only [List.map_cons, List.mem_cons]
      rintro (h1 | h1)
      · exact hne h1
      · exact hfresh
          (((BoundedTTLCache.removeKey_sublist k c.entries).map Prod.fst).mem h1)
    have hlookg : lookupKey knew (c.get k now3).2.entries = none :=
      (lookupKey_eq_none_iff _ _).mpr hfreshg
    have hlg : (c.get k now3).2.entries.length = c.entries.length := by
      rw [hentries]
      simp only [List.length_cons]
      exact hlenr
    have hfullg : (c.get k now3).2.capacity
        ≤ (c.get k now3).2.entries.length := by
      rw [hcapg, hlg, hclen]
    have hset := BoundedTTLCache.set_entries_new_full (c.get k now3).2
      knew vnew now4 none hlookg hfullg
    constructor
    · rw [hset, httl]
      rfl
    · show k ∈ ((c.get k now3).2.set knew vnew now4 none).entries.map Prod.fst
      rw [hset, hentries]
      obtain ⟨y, zs, hyz⟩ : ∃ y zs,
          BoundedTTLCache.removeKey k c.entries = y :: zs := by
        rcases hrk : BoundedTTLCache.removeKey k c.entries with _ | ⟨y, zs⟩
        · exfalso
          rw [hrk] at hlenr
          simp at hlenr
          omega
        · exact ⟨y, zs, rfl⟩
      rw [hyz, List.dropLast_cons₂]
      simp

/-- Witness for C4: the insertion sequence A, B, C into an empty capacity-2
cache evicts A, and reading A in the full two-entry cache protects it from
the eviction caused by inserting C. -/
theorem boundedTTLCache_lru_correctness_witness :
    "A" ∉ ((BoundedTTLCache.empty 2 1000 :
        BoundedTTLCache Nat).insertAll lruOps 0).keys ∧
    "A" ∈ ((protectionCache.get "A" 0).2.set "C" 4 0 none).keys :=
  ⟨((boundedTTLCache_lru_correctness 2 1000 0 0 lruOps protectionCache
      "A" "C" 1 4 0 0 (by decide) (by decide) (by decide) (by decide)
      (by decide) (by decide) (by decide) (by decide)).2.1
      "A" ["B", "C"] (by decide)).1,
    (boundedTTLCache_lru_correctness 2 1000 0 0 lruOps protectionCache
      "A" "C" 1 4 0 0 (by decide) (by decide) (by decide) (by decide)
      (by decide) (by decide) (by decide) (by decide)).2.2.2⟩

/-! ## Part 4: CacheManager and metrics -/

/-- Modelled from the spec: MetricsRecorder counters for one domain; the
implementation file cache/cache_manager.py is missing from the source
tree. -/
structure Metrics where
  hits : Nat
  misses : Nat
  errors : Nat
  totalLatencyHit : Nat
  totalLatencyMiss : Nat
deriving DecidableEq

/-- A cache domain: token prices or reports. -/
inductive CacheDomain where
  | token : CacheDomain
  | report : CacheDomain
deriving DecidableEq

/-- Argument of the clear operation: one domain or all. -/
inductive ClearTarget where
  | token : ClearTarget
  | report : ClearTarget
  | all : ClearTarget
deriving DecidableEq

/-- Modelled from the spec: the CacheManager composes one BoundedTTLCache
and one metrics record per domain; the implementation file
cache/cache_manager.py is missing from the source tree. -/
structure CacheManager (V : Type) where
  tokenCache : BoundedTTLCache V
  reportCache : BoundedTTLCache V
  tokenMetrics : Metrics
  reportMetrics : Metrics
deriving DecidableEq

namespace CacheManager

variable {V : Type}

def domainCache (m : CacheManager V) : CacheDomain → BoundedTTLCache V
  | .token => m.tokenCache
  | .report => m.reportCache

def domainMetrics (m : CacheManager V) : CacheDomain → Metrics
  | .token => m.tokenMetrics
  | .report => m.reportMetrics

def setDomainCache (m : CacheManager V) :
    CacheDomain → BoundedTTLCache V → CacheManager V
  | .token, c => { m with tokenCache := c }
  | .report, c => { m with reportCache := c }

def mapMetrics (m : CacheManager V) :
    CacheDomain → (Metrics → Metrics) → CacheManager V
  | .token, f => { m with tokenMetrics := f m.tokenMetrics }
  | .report, f => { m with reportMetrics := f m.reportMetrics }

/-- Modelled from the spec: clear(domain or all) clears one or both
BoundedTTLCaches and does not reset metrics counters. -/
def clear (m : CacheManager V) : ClearTarget → CacheManager V
  | .token => { m with tokenCache := m.tokenCache.clear }
  | .report => { m with reportCache := m.reportCache.clear }
  | .all => { m with
      tokenCache := m.tokenCache.clear
      reportCache := m.reportCache.clear }

def recordHit (mx : Metrics) (lat : Nat) : Metrics :=
  { mx with hits := mx.hits + 1, totalLatencyHit := mx.totalLatencyHit + lat }

def recordMiss (mx : Metrics) (lat : Nat) : Metrics :=
  { mx with
    misses := mx.misses + 1
    totalLatencyMiss := mx.totalLatencyMiss + lat }

def recordError (mx : Metrics) : Metrics :=
  { mx with errors := mx.errors + 1 }

/-- Modelled from the spec: getOrCompute looks the key up in the domain
cache; on a hit it records a hit and returns without invoking computeFn; on
a miss it records a miss and invokes computeFn (through the single-flight
group, whose interleaving behavior is modelled separately): a success is
stored with the domain TTL and returned, a failure is recorded as an error,
not cached, and propagated unchanged.  The Bool of the result tells whether
computeFn was invoked.  The implementation file cache/cache_manager.py is
missing from the source tree. -/
def getOrCompute {E : Type} (m : CacheManager V) (d : CacheDomain)
    (key : String) (now : Nat) (computeFn : Except E V) (lat : Nat) :
    Except E V × CacheManager V × Bool :=
  let c := m.domainCache d
  match (c.get key now).1 with
  | some v =>
    (Except.ok v,
      (m.setDomainCache d (c.get key now).2).mapMetrics d (recordHit · lat),
      false)
  | none =>
    match computeFn with
    | Except.ok v =>
      (Except.ok v,
        (m.setDomainCache d
          (((c.get key now).2).set key v now none)).mapMetrics d
            (recordMiss · lat),
        true)
    | Except.error err =>
      (Except.error err,
        (m.setDomainCache d (c.get key now).2).mapMetrics d
          (fun mx => recordError (recordMiss mx lat)),
        true)

end CacheManager

/-- C6: after clear(all), every get on every key in either domain misses,
both caches have size zero, and the metrics counters of both domains are
exactly those from before the clear. -/
theorem cacheManager_clear_all {V : Type} (m : CacheManager V)
    (key : String) (now : Nat) (d : CacheDomain) :
    (((m.clear ClearTarget.all).domainCache d).get key now).1 = none ∧
    (m.clear ClearTarget.all).tokenCache.size = 0 ∧
    (m.clear ClearTarget.all).reportCache.size = 0 ∧
    (m.clear ClearTarget.all).tokenMetrics = m.tokenMetrics ∧
    (m.clear ClearTarget.all).reportMetrics = m.reportMetrics := by
  refine ⟨?_, rfl, rfl, rfl, rfl⟩
  cases d <;>
    simp [CacheManager.clear, CacheManager.domainCache,
      BoundedTTLCache.clear, BoundedTTLCache.get, lookupKey]

/-! ## Part 5: SingleFlightGroup as an interleaving state machine -/

/-- Modelled from the spec: an externally visible event of the
SingleFlightGroup.  An arrive event is a caller reaching run(key,
computeFn) (starting the computation when none is in flight, attaching
otherwise); a resolve event is the in-flight computation for a key
finishing with an outcome, which is delivered to every attached waiter.
The implementation file cache/cache_manager.py is missing from the source
tree. -/
inductive SFEvent (V E : Type) where
  | arrive (caller : Nat) (key : String) : SFEvent V E
  | resolve (key : String) (outcome : Except E V) : SFEvent V E

/-- Modelled from the spec: the SingleFlightGroup state.  inflight maps a
key to the callers waiting on its single computation; delivered records
which caller received which outcome; calls is the log of computeFn
invocations (one entry per started computation).  The implementation file
cache/cache_manager.py is missing from the source tree. -/
structure SFState (V E : Type) where
  inflight : List (String × List Nat)
  delivered : List (Nat × Except E V)
  calls : List String

def updateWaiters (k : String) (caller : Nat)
    (l : List (String × List Nat)) : List (String × List Nat) :=
  l.map fun kv => if kv.1 = k then (kv.1, kv.2 ++ [caller]) else kv

def removeFlight (k : String) (l : List (String × List Nat)) :
    List (String × List Nat) :=
  l.filter fun kv => decide (kv.1 ≠ k)

namespace SFState

variable {V E : Type}

/-- Modelled from the spec: one interleaving step.  A caller arriving at a
key with a computation in flight attaches to it; arriving at a quiet key
creates the in-flight record and invokes computeFn (logged in calls); the
resolution of a key delivers the one outcome to every attached caller and
removes the in-flight record at once. -/
def step (s : SFState V E) : SFEvent V E → SFState V E
  | .arrive caller k =>
    match lookupKey k s.inflight with
    | some _ => { s with inflight := updateWaiters k caller s.inflight }
    | none =>
      { s with
        inflight := (k, [caller]) :: s.inflight
        calls := s.calls ++ [k] }
  | .resolve k o =>
    match lookupKey k s.inflight with
    | some ws =>
      { s with
        inflight := removeFlight k s.inflight
        delivered := s.delivered ++ ws.map (fun caller => (caller, o)) }
    | none => s

/-- The state with nothing in flight, nothing delivered, no calls. -/
def init : SFState V E := ⟨[], [], []⟩

/-- Folding a whole event trace from a given state. -/
def runFrom (s : SFState V E) (evs : List (SFEvent V E)) : SFState V E :=
  evs.foldl step s

/-- The state after a trace from the initial state. -/
def run (evs : List (SFEvent V E)) : SFState V E :=
  runFrom init evs

/-- N callers arriving in sequence at the same key. -/
def arriveAll (s : SFState V E) (cs : List Nat) (k : String) : SFState V E :=
  runFrom s (cs.map fun caller => SFEvent.arrive caller k)

end SFState

theorem updateWaiters_cons (k : String) (caller : Nat) (k0 : String)
    (ws0 : List Nat) (rest : List (String × List Nat)) :
    updateWaiters k caller ((k0, ws0) :: rest)
      = (if k0 = k then (k0, ws0 ++ [caller]) else (k0, ws0))
        :: updateWaiters k caller rest := by
  simp only [updateWaiters, List.map_cons]

theorem updateWaiters_map_fst (k : String) (caller : Nat)
    (l : List (String × List Nat)) :
    (updateWaiters k caller l).map Prod.fst = l.map Prod.fst := by
  induction l with
  | nil => rfl
  | cons kv rest ih =>
    rcases kv with ⟨k0, ws0⟩
    rw [updateWaiters_cons]
    by_cases h : k0 = k
    · rw [if_pos h]
      simp only [List.map_cons]
      rw [ih]
    · rw [if_neg h]
      simp only [List.map_cons]
      rw [ih]

theorem lookupKey_updateWaiters_self (k : String) (caller : Nat)
    (l : List (String × List Nat)) :
    lookupKey k (updateWaiters k caller l)
      = (lookupKey k l).map (fun ws => ws ++ [caller]) := by
  induction l with
  | nil => rfl
  | cons kv rest ih =>
    rcases kv with ⟨k0, ws0⟩
    rw [updateWaiters_cons]
    by_cases h : k0 = k
    · subst h
      rw [if_pos rfl]
      simp [lookupKey]
    · rw [if_neg h]
      rw [show lookupKey k ((k0, ws0) :: updateWaiters k caller rest)
          = lookupKey k (updateWaiters k caller rest) by simp [lookupKey, h]]
      rw [show lookupKey k ((k0, ws0) :: rest) = lookupKey k rest by
        simp [lookupKey, h]]
      exact ih

namespace SFState

variable {V E : Type}

theorem step_nodup_inflight (s : SFState V E) (ev : SFEvent V E)
    (hn : (s.inflight.map Prod.fst).Nodup) :
    ((s.step ev).inflight.map Prod.fst).Nodup := by
  cases ev with
  | arrive caller k =>
    rcases hl : lookupKey k s.inflight with _ | ws
    · have hstep : (s.step (SFEvent.arrive caller k)).inflight
          = (k, [caller]) :: s.inflight := by
        simp [step, hl]
      rw [hstep]
      simp only [List.map_cons, List.nodup_cons]
      exact ⟨(lookupKey_eq_none_iff k s.inflight).mp hl, hn⟩
    · have hstep : (s.step (SFEvent.arrive caller k)).inflight
          = updateWaiters k caller s.inflight := by
        simp [step, hl]
      rw [hstep, updateWaiters_map_fst]
      exact hn
  | resolve k o =>
    rcases hl : lookupKey k s.inflight with _ | ws
    · have hstep : s.step (SFEvent.resolve k o) = s := by
        simp [step, hl]
      rw [hstep]
      exact hn
    · have hstep : (s.step (SFEvent.resolve k o)).inflight
          = removeFlight k s.inflight := by
        simp [step, hl]
      rw [hstep]
      exact ((List.filter_sublist s.inflight).map Prod.fst).nodup hn

theorem runFrom_nodup_inflight (s : SFState V E) (evs : List (SFEvent V E))
    (hn : (s.inflight.map Prod.fst).Nodup) :
    (((s.runFrom evs).inflight).map Prod.fst).Nodup := by
  induction evs generalizing s with
  | nil => exact hn
  | cons ev rest ih => exact ih (s.step ev) (step_nodup_inflight s ev hn)

theorem run_active_at_most_one (evs : List (SFEvent V E)) (k2 : String) :
    (((run evs : SFState V E).inflight).map Prod.fst).count k2 ≤ 1 :=
  List.nodup_iff_count_le_one.mp
    (runFrom_nodup_inflight init evs List.nodup_nil) k2

theorem arriveAll_of_inflight (cs : List Nat) (s : SFState V E)
    (k : String) (ws : List Nat)
    (h : lookupKey k s.inflight = some ws) :
    lookupKey k (s.arriveAll cs k).inflight = some (ws ++ cs) ∧
    (s.arriveAll cs k).calls = s.calls := by
  induction cs generalizing s ws with
  | nil =>
    constructor
    · simpa [arriveAll, runFrom] using h
    · rfl
  | cons c rest ih =>
    have hstep1 : s.step (SFEvent.arrive c k)
        = { s with inflight := updateWaiters k c s.inflight } := by
      simp [step, h]
    have hchain : s.arriveAll (c :: rest) k
        = (s.step (SFEvent.arrive c k)).arriveAll rest k := by
      simp [arriveAll, runFrom]
    have hlook2 : lookupKey k (s.step (SFEvent.arrive c k)).inflight
        = some (ws ++ [c]) := by
      rw [hstep1]
      show lookupKey k (updateWaiters k c s.inflight) = some (ws ++ [c])
      rw [lookupKey_updateWaiters_self, h]
      rfl
    have hrec := ih (s.step (SFEvent.arrive c k)) (ws ++ [c]) hlook2
    rw [hchain]
    refine ⟨?_, ?_⟩
    · rw [hrec.1]
      simp
    · rw [hrec.2, hstep1]

theorem arriveAll_fresh (cs : List Nat) (s : SFState V E) (k : String)
    (hnone : lookupKey k s.inflight = none) (hcs : cs ≠ []) :
    lookupKey k (s.arriveAll cs k).inflight = some cs ∧
    (s.arriveAll cs k).calls = s.calls ++ [k] := by
  rcases cs with _ | ⟨c0, rest⟩
  · exact absurd rfl hcs
  · have hstep1 : s.step (SFEvent.arrive c0 k)
        = { s with
            inflight := (k, [c0]) :: s.inflight
            calls := s.calls ++ [k] } := by
      simp [step, hnone]
    have hchain : s.arriveAll (c0 :: rest) k
        = (s.step (SFEvent.arrive c0 k)).arriveAll rest k := by
      simp [arriveAll, runFrom]
    have hlook1 : lookupKey k (s.step (SFEvent.arrive c0 k)).inflight
        = some [c0] := by
      rw [hstep1]
      simp [lookupKey]
    have hrec := arriveAll_of_inflight rest (s.step (SFEvent.arrive c0 k))
      k [c0] hlook1
    rw [hchain]
    refine ⟨?_, ?_⟩
    · rw [hrec.1]
      rfl
    · rw [hrec.2, hstep1]

theorem resolve_delivers_to_all (s : SFState V E) (k : String)
    (ws : List Nat) (o : Except E V)
    (h : lookupKey k s.inflight = some ws) :
    ∀ caller ∈ ws, (caller, o) ∈ (s.step (SFEvent.resolve k o)).delivered := by
  intro caller hc
  have hstep : (s.step (SFEvent.resolve k o)).delivered
      = s.delivered ++ ws.map (fun c2 => (c2, o)) := by
    simp [step, h]
  rw [hstep]
  exact List.mem_append.mpr (Or.inr (List.mem_map_of_mem _ hc))

end SFState

/-- C3: along every event trace each key has at most one in-flight
computation at any instant; a burst of N callers arriving at a key with no
computation in flight starts exactly one computeFn invocation, all N attach
to it, and when it resolves every one of them receives the identical
outcome. -/
theorem singleFlight_single_computation {V E : Type}
    (evs : List (SFEvent V E)) (k2 : String)
    (s : SFState V E) (k : String) (cs : List Nat) (o : Except E V)
    (hnone : lookupKey k s.inflight = none) (hcs : cs ≠ []) :
    (((SFState.run evs : SFState V E).inflight).map Prod.fst).count k2 ≤ 1 ∧
    (s.arriveAll cs k).calls.count k = s.calls.count k + 1 ∧
    lookupKey k (s.arriveAll cs k).inflight = some cs ∧
    (∀ caller ∈ cs, (caller, o) ∈
      ((s.arriveAll cs k).step (SFEvent.resolve k o)).delivered) := by
  have hw := SFState.arriveAll_fresh cs s k hnone hcs
  refine ⟨SFState.run_active_at_most_one evs k2, ?_, hw.1, ?_⟩
  · rw [hw.2, List.count_append]
    simp
  · exact SFState.resolve_delivers_to_all _ k cs o hw.1

/-- Witness for C3: three callers arriving at a quiet key from the initial
state. -/
theorem singleFlight_single_computation_witness :
    lookupKey "price" (SFState.init : SFState Nat String).inflight = none ∧
    ((((SFState.run ([] : List (SFEvent Nat String))).inflight).map
        Prod.fst).count "x" ≤ 1 ∧
      ((SFState.init : SFState Nat String).arriveAll [0, 1, 2]
        "price").calls.count "price"
        = (SFState.init : SFState Nat String).calls.count "price" + 1 ∧
      lookupKey "price" ((SFState.init : SFState Nat String).arriveAll
        [0, 1, 2] "price").inflight = some [0, 1, 2] ∧
      (∀ caller ∈ [0, 1, 2], (caller, (Except.ok 42 : Except String Nat)) ∈
        (((SFState.init : SFState Nat String).arriveAll [0, 1, 2]
          "price").step (SFEvent.resolve "price" (Except.ok 42))).delivered)) :=
  ⟨rfl, singleFlight_single_computation [] "x" SFState.init "price"
    [0, 1, 2] (Except.ok 42) rfl (by decide)⟩

namespace BoundedTTLCache

theorem get_miss_snd {V : Type} (c : BoundedTTLCache V) (key : String)
    (now : Nat) (h : (c.get key now).1 = none) : (c.get key now).2 = c := by
  unfold get at h ⊢
  rcases hl : lookupKey key c.entries with _ | e
  · rfl
  · rw [hl] at h
    by_cases hexp : e.expiresAt ≤ now
    · simp [hexp]
    · simp [hexp] at h

end BoundedTTLCache

namespace CacheManager

variable {V : Type}

theorem setDomainCache_self (m : CacheManager V) (d : CacheDomain) :
    m.setDomainCache d (m.domainCache d) = m := by
  cases d <;> rfl

theorem mapMetrics_tokenCache (m : CacheManager V) (d : CacheDomain)
    (f : Metrics → Metrics) : (m.mapMetrics d f).tokenCache = m.tokenCache := by
  cases d <;> rfl

theorem mapMetrics_reportCache (m : CacheManager V) (d : CacheDomain)
    (f : Metrics → Metrics) : (m.mapMetrics d f).reportCache = m.reportCache := by
  cases d <;> rfl

theorem mapMetrics_domainCache (m : CacheManager V) (d d2 : CacheDomain)
    (f : Metrics → Metrics) :
    (m.mapMetrics d f).domainCache d2 = m.domainCache d2 := by
  cases d <;> cases d2 <;> rfl

theorem getOrCompute_error_eq {E : Type} (m : CacheManager V) (d : CacheDomain)
    (key : String) (now : Nat) (err : E) (lat : Nat)
    (hmiss : ((m.domainCache d).get key now).1 = none) :
    m.getOrCompute d key now (Except.error err) lat
      = (Except.error err,
        m.mapMetrics d (fun mx => recordError (recordMiss mx lat)),
        true) := by
  have hsnd := BoundedTTLCache.get_miss_snd (m.domainCache d) key now hmiss
  simp only [getOrCompute, hmiss]
  rw [hsnd, setDomainCache_self]

theorem getOrCompute_miss_computes {E : Type} (m : CacheManager V)
    (d : CacheDomain) (key : String) (now : Nat) (cf : Except E V) (lat : Nat)
    (hmiss : ((m.domainCache d).get key now).1 = none) :
    (m.getOrCompute d key now cf lat).2.2 = true := by
  cases cf <;> simp [getOrCompute, hmiss]

end CacheManager

/-- C5: a computeFn failure during getOrCompute on a missing key returns
the error unchanged, leaves both caches exactly as they were (nothing is
stored), and a subsequent getOrCompute for the same key invokes its
computeFn afresh; the single-flight resolution of the failure delivers the
same error to every attached waiter. -/
theorem cacheManager_no_negative_caching {V E : Type}
    (m : CacheManager V) (d : CacheDomain) (key : String) (now : Nat)
    (err : E) (lat lat2 : Nat) (second : Except E V)
    (s : SFState V E) (ws : List Nat)
    (hmiss : ((m.domainCache d).get key now).1 = none)
    (hws : lookupKey key s.inflight = some ws) :
    (m.getOrCompute d key now (Except.error err) lat).1 = Except.error err ∧
    (m.getOrCompute d key now (Except.error err) lat).2.1.tokenCache
      = m.tokenCache ∧
    (m.getOrCompute d key now (Except.error err) lat).2.1.reportCache
      = m.reportCache ∧
    ((m.getOrCompute d key now (Except.error err) lat).2.1.getOrCompute
      d key now second lat2).2.2 = true ∧
    (∀ caller ∈ ws, (caller, (Except.error err : Except E V))
      ∈ (s.step (SFEvent.resolve key (Except.error err))).delivered) := by
  have heq := CacheManager.getOrCompute_error_eq m d key now err lat hmiss
  refine ⟨?_, ?_, ?_, ?_, ?_⟩
  · rw [heq]
  · rw [heq]
    exact CacheManager.mapMetrics_tokenCache m d _
  · rw [heq]
    exact CacheManager.mapMetrics_reportCache m d _
  · rw [heq]
    apply CacheManager.getOrCompute_miss_computes
    rw [CacheManager.mapMetrics_domainCache]
    exact hmiss
  · exact SFState.resolve_delivers_to_all s key ws _ hws

/-- Manager used by the C5 and C6 witnesses. -/
def sampleManager : CacheManager Nat :=
  ⟨BoundedTTLCache.empty 10 100, BoundedTTLCache.empty 5 100,
    ⟨0, 0, 0, 0, 0⟩, ⟨0, 0, 0, 0, 0⟩⟩

/-- Single-flight state with two waiters attached to key k, used by the C5
witness. -/
def sampleSFState : SFState Nat String :=
  ⟨[("k", [1, 2])], [], ["k"]⟩

/-- Witness for C5 at a concrete manager, key and waiters. -/
theorem cacheManager_no_negative_caching_witness :
    ((sampleManager.domainCache CacheDomain.token).get "k" 0).1 = none ∧
    lookupKey "k" sampleSFState.inflight = some [1, 2] ∧
    (sampleManager.getOrCompute CacheDomain.token "k" 0
      (Except.error "boom") 1).1 = Except.error "boom" ∧
    ((sampleManager.getOrCompute CacheDomain.token "k" 0
      (Except.error "boom") 1).2.1.getOrCompute CacheDomain.token "k" 0
      (Except.ok 5 : Except String Nat) 2).2.2 = true :=
  ⟨by decide, by decide,
    (cacheManager_no_negative_caching sampleManager CacheDomain.token "k" 0
      "boom" 1 2 (Except.ok 5 : Except String Nat) sampleSFState [1, 2]
      (by decide) (by decide)).1,
    (cacheManager_no_negative_caching sampleManager CacheDomain.token "k" 0
      "boom" 1 2 (Except.ok 5 : Except String Nat) sampleSFState [1, 2]
      (by decide) (by decide)).2.2.2.1⟩
